import Mathlib

/-!
Verification of the core pipeline of `app.py` (TwitterBot): content
formatting, rate-limited posting, retry orchestration, credential
validation and the process exit contract.  Strings are modelled as
`List Char`; the oracles for the random generator and the remote posting
endpoint are explicit function parameters; wall-clock time is modelled
as `Rat`.
-/

/-- Whitespace in the sense of Python's `str.split()` / `str.isspace()`,
restricted to the ASCII whitespace characters. -/
def pyIsSpace (c : Char) : Bool :=
  c = ' ' || c = '\t' || c = '\n' || c = '\r' || c = '\x0b' || c = '\x0c'

/-- Model of Python's `content.split()`: the maximal whitespace-free
nonempty chunks of the list, in order, with all whitespace dropped. -/
def pySplit : List Char → List (List Char)
  | [] => []
  | c :: cs =>
    if pyIsSpace c then pySplit cs
    else
      match cs with
      | [] => [[c]]
      | d :: _ =>
        if pyIsSpace d then [c] :: pySplit cs
        else
          match pySplit cs with
          | [] => [[c]]
          | w :: ws => (c :: w) :: ws

/-- Model of Python's `' '.join(ws)`: concatenate the chunks with a single
space between consecutive chunks. -/
def joinSp : List (List Char) → List Char
  | [] => []
  | [w] => w
  | w :: ws => w ++ ' ' :: joinSp ws

/-- `' '.join(content.split())` — whitespace normalisation step of
`TwitterBot._format_content`. -/
def collapse (l : List Char) : List Char :=
  joinSp (pySplit l)

/-- `self.MAX_TWEET_LENGTH = 280` (app.py line 136). -/
def MAX_TWEET_LENGTH : Nat := 280

/-- `TwitterBot._format_content` (app.py lines 200-207): collapse
whitespace, then if the length exceeds `MAX_TWEET_LENGTH - 6` truncate to
`MAX_TWEET_LENGTH - 9` characters and append `"..."`. -/
def format_content (content : List Char) : List Char :=
  let c := collapse content
  if MAX_TWEET_LENGTH - 6 < c.length then
    c.take (MAX_TWEET_LENGTH - 9) ++ ['.', '.', '.']
  else
    c

/-- No character of the list is followed by another whitespace character
while itself being whitespace (no run of two consecutive whitespace
characters). -/
def wsPairFree : List Char → Bool
  | a :: b :: rest => (!(pyIsSpace a && pyIsSpace b)) && wsPairFree (b :: rest)
  | _ => true

/-- Neither the first nor the last character is whitespace. -/
def noLeadTrailWS (l : List Char) : Bool :=
  (match l.head? with | some c => !pyIsSpace c | none => true) &&
  (match l.getLast? with | some c => !pyIsSpace c | none => true)

/-- Every whitespace character occurring in the list is a plain space. -/
def onlySpaceWS (l : List Char) : Bool :=
  l.all fun c => !pyIsSpace c || (c == ' ')

/-- No newline character occurs in the list. -/
def noNewline (l : List Char) : Bool :=
  l.all fun c => !(c == '\n')

/-- A string is in fully formatted shape: its only whitespace characters
are single interior spaces. -/
def strictClean (l : List Char) : Bool :=
  onlySpaceWS l && wsPairFree l && noLeadTrailWS l

/-- Two adjacent characters are not both whitespace. -/
def wsNoPair (a b : Char) : Prop := (pyIsSpace a && pyIsSpace b) = false

/-- The shape every output of `collapse` has: whitespace only as single
interior spaces. -/
structure CleanShape (s : List Char) : Prop where
  only : ∀ c ∈ s, pyIsSpace c = true → c = ' '
  chain : List.Chain' wsNoPair s
  head : ∀ c, s.head? = some c → pyIsSpace c = false
  last : ∀ c, s.getLast? = some c → pyIsSpace c = false

/-- Observable events of one `run` invocation: a generation attempt, a
call to `post_tweet` with its content and outcome, and a 30-second
inter-attempt backoff sleep. -/
inductive Ev where
  | gen : Ev
  | post : List Char → Bool → Ev
  | backoff : Ev
deriving DecidableEq

/-- `TwitterBot.generate_tweet` (app.py lines 179-198): the raw template
or model output (`none` when generation raised) is passed through
`_format_content` before being returned. -/
def generate_tweet (raw : Option (List Char)) : Option (List Char) :=
  raw.map format_content

/-- The attempt loop of `TwitterBot.run` (app.py lines 229-248), from a
given attempt index with the given number of attempts remaining.  `g i`
is the raw generation result of attempt `i`; `p i c` is the outcome of
the remote post of content `c` on attempt `i`.  `continue` on a falsy
generation result skips the backoff branch; a backoff sleep happens only
when `attempt < retries - 1` after a failed publish. -/
def runGo (g : Nat → Option (List Char)) (p : Nat → List Char → Bool)
    (retries : Nat) : Nat → Nat → Bool × List Ev
  | 0, _ => (false, [])
  | fuel + 1, attempt =>
    match generate_tweet (g attempt) with
    | none =>
      let rest := runGo g p retries fuel (attempt + 1)
      (rest.1, Ev.gen :: rest.2)
    | some c =>
      if c.isEmpty then
        let rest := runGo g p retries fuel (attempt + 1)
        (rest.1, Ev.gen :: rest.2)
      else if p attempt c then
        (true, [Ev.gen, Ev.post c true])
      else
        let rest := runGo g p retries fuel (attempt + 1)
        (rest.1, Ev.gen :: Ev.post c false ::
          ((if attempt < retries - 1 then [Ev.backoff] else []) ++ rest.2))

/-- `TwitterBot.run(retries)`: the attempt loop started at attempt 0. -/
def run (g : Nat → Option (List Char)) (p : Nat → List Char → Bool)
    (retries : Nat) : Bool × List Ev :=
  runGo g p retries retries 0

/-- Number of publisher calls recorded in a trace. -/
def countPost (evs : List Ev) : Nat :=
  evs.countP fun e => match e with | Ev.post _ _ => true | _ => false

/-- Number of successful publisher calls recorded in a trace. -/
def countSuccPost (evs : List Ev) : Nat :=
  evs.countP fun e => match e with | Ev.post _ true => true | _ => false

/-- Number of backoff sleeps recorded in a trace. -/
def countBackoff (evs : List Ev) : Nat :=
  evs.countP fun e => match e with | Ev.backoff => true | _ => false

/-- `self.RATE_LIMIT_DELAY = 60` (app.py line 137), in seconds. -/
def RATE_LIMIT_DELAY : Rat := 60

/-- The rate-limit wait at the top of `TwitterBot.post_tweet` (app.py
lines 212-215): given the recorded time of the last tweet and the current
time, the time at which the HTTP request is issued.  When a previous
tweet is recorded and less than `RATE_LIMIT_DELAY` has elapsed, the call
sleeps for the remaining time, computed at call time. -/
def awaitSlotUntil (last : Option Rat) (now : Rat) : Rat :=
  match last with
  | none => now
  | some t => if now - t < RATE_LIMIT_DELAY then now + (RATE_LIMIT_DELAY - (now - t)) else now

/-- `TwitterBot.post_tweet` (app.py lines 209-227): rate-limit wait, then
the HTTP post.  `httpOk` is whether the request succeeded (any exception,
transport error or non-2xx status via `raise_for_status`, takes the
`except` branch).  `succTime` is the value of `time.time()` after a
successful request.  Returns the report value, the new `last_tweet_time`
and the time at which the request was issued. -/
def post_tweet (last : Option Rat) (now succTime : Rat) (httpOk : Bool) :
    Bool × Option Rat × Rat :=
  let issueAt := awaitSlotUntil last now
  if httpOk then (true, some succTime, issueAt) else (false, last, issueAt)

/-- The four environment variables required by
`TwitterBot._load_credentials` (app.py lines 149-154). -/
def required_vars : List String :=
  ["ACCESS_TOKEN", "ACCESS_TOKEN_SECRET", "CONSUMER_KEY", "CONSUMER_SECRET"]

/-- Python falsiness of `os.getenv(var)`: unset, or set to the empty
string. -/
def falsyEnv (v : Option String) : Bool :=
  match v with
  | none => true
  | some s => s == ""

/-- `TwitterBot._load_credentials` (app.py lines 147-168): collect the
required variables, and raise `EnvironmentError` naming the missing ones
when any is unset or empty. -/
def load_credentials (env : String → Option String) :
    Except (List String) (List (String × String)) :=
  let missing := required_vars.filter fun v => falsyEnv (env v)
  if missing.isEmpty then
    Except.ok (required_vars.map fun v => (v, (env v).getD ""))
  else
    Except.error missing

/-- The `__main__` block (app.py lines 250-262): install dependencies,
construct the bot (which loads credentials), run the attempt loop with
the default of 3 retries, and exit 0 on success and 1 otherwise; any
exception on the way yields exit code 1.  Returns the exit code and the
trace of the attempt loop (empty when the loop was never entered). -/
def mainModel (installOk : Bool) (env : String → Option String)
    (g : Nat → Option (List Char)) (p : Nat → List Char → Bool) : Nat × List Ev :=
  if installOk then
    match load_credentials env with
    | Except.error _ => (1, [])
    | Except.ok _ =>
      let r := run g p 3
      (if r.1 then 0 else 1, r.2)
  else (1, [])

theorem pySplit_cons_space {c : Char} (cs : List Char) (hc : pyIsSpace c = true) :
    pySplit (c :: cs) = pySplit cs := by
  rw [pySplit.eq_def]
  simp [hc]

theorem pySplit_singleton {c : Char} (hc : pyIsSpace c = false) :
    pySplit [c] = [[c]] := by
  rw [pySplit.eq_def]
  simp [hc]

theorem pySplit_word_space {c d : Char} (t : List Char) (hc : pyIsSpace c = false)
    (hd : pyIsSpace d = true) : pySplit (c :: d :: t) = [c] :: pySplit (d :: t) := by
  rw [pySplit.eq_def]
  simp [hc, hd]

theorem pySplit_word_word {c d : Char} (t : List Char) (hc : pyIsSpace c = false)
    (hd : pyIsSpace d = false) :
    pySplit (c :: d :: t) =
      match pySplit (d :: t) with
      | [] => [[c]]
      | w :: ws => (c :: w) :: ws := by
  rw [pySplit.eq_def]
  simp [hc, hd]

theorem pySplit_words_clean :
    ∀ l : List Char, ∀ w ∈ pySplit l, w ≠ [] ∧ ∀ c ∈ w, pyIsSpace c = false := by
  intro l
  induction l with
  | nil => intro w hw; simp [pySplit] at hw
  | cons c cs ih =>
    intro w hw
    by_cases hc : pyIsSpace c = true
    · rw [pySplit_cons_space cs hc] at hw
      exact ih w hw
    · have hc' : pyIsSpace c = false := by simpa using hc
      cases cs with
      | nil =>
        rw [pySplit_singleton hc'] at hw
        simp at hw
        subst hw
        exact ⟨by simp, by simpa using hc'⟩
      | cons d t =>
        by_cases hd : pyIsSpace d = true
        · rw [pySplit_word_space t hc' hd] at hw
          rcases List.mem_cons.1 hw with h | h
          · subst h
            exact ⟨by simp, by simpa using hc'⟩
          · exact ih w h
        · have hd' : pyIsSpace d = false := by simpa using hd
          rw [pySplit_word_word t hc' hd'] at hw
          cases hps : pySplit (d :: t) with
          | nil =>
            rw [hps] at hw
            simp at hw
            subst hw
            exact ⟨by simp, by simpa using hc'⟩
          | cons w' ws =>
            rw [hps] at hw
            rcases List.mem_cons.1 hw with h | h
            · subst h
              refine ⟨by simp, ?_⟩
              intro x hx
              rcases List.mem_cons.1 hx with h | h
              · subst h; exact hc'
              · exact (ih w' (by rw [hps]; exact List.mem_cons_self w' ws)).2 x h
            · exact ih w (by rw [hps]; exact List.mem_cons_of_mem w' h)

theorem pySplit_ne_nil {e : Char} (t : List Char) (he : pyIsSpace e = false) :
    pySplit (e :: t) ≠ [] := by
  cases t with
  | nil => rw [pySplit_singleton he]; simp
  | cons d t =>
    by_cases hd : pyIsSpace d = true
    · rw [pySplit_word_space t he hd]; simp
    · have hd' : pyIsSpace d = false := by simpa using hd
      rw [pySplit_word_word t he hd']
      split <;> simp

theorem joinSp_cons_cons (w x : List Char) (ws : List (List Char)) :
    joinSp (w :: x :: ws) = w ++ ' ' :: joinSp (x :: ws) := rfl

theorem joinSp_cons_head (a : Char) (w : List Char) (ws : List (List Char)) :
    joinSp ((a :: w) :: ws) = a :: joinSp (w :: ws) := by
  cases ws <;> rfl

theorem joinSp_ne_nil {w : List Char} (hw : w ≠ []) (ws : List (List Char)) :
    joinSp (w :: ws) ≠ [] := by
  cases ws with
  | nil => simpa [joinSp] using hw
  | cons x ws => simp [joinSp_cons_cons, hw]

theorem joinSp_head? {w : List Char} (hw : w ≠ []) (ws : List (List Char)) :
    (joinSp (w :: ws)).head? = w.head? := by
  cases ws with
  | nil => rfl
  | cons x ws =>
    obtain ⟨a, w', rfl⟩ := List.exists_cons_of_ne_nil hw
    simp [joinSp_cons_cons]

theorem getLast?_cons_of_ne_nil (a : Char) {s : List Char} (hs : s ≠ []) :
    (a :: s).getLast? = s.getLast? := by
  obtain ⟨b, t, rfl⟩ := List.exists_cons_of_ne_nil hs
  exact List.getLast?_cons_cons

/-- Every whitespace-collapsed string has only single interior spaces as
whitespace. -/
theorem collapse_clean : ∀ l : List Char, CleanShape (collapse l) := by
  intro l
  induction l with
  | nil => exact ⟨by simp [collapse, pySplit, joinSp], by simp [collapse, pySplit, joinSp],
      by simp [collapse, pySplit, joinSp], by simp [collapse, pySplit, joinSp]⟩
  | cons c cs ih =>
    by_cases hc : pyIsSpace c = true
    · have : collapse (c :: cs) = collapse cs := by
        rw [collapse, collapse, pySplit_cons_space cs hc]
      rw [this]; exact ih
    · have hc' : pyIsSpace c = false := by simpa using hc
      cases cs with
      | nil =>
        have : collapse [c] = [c] := by rw [collapse, pySplit_singleton hc']; rfl
        rw [this]
        exact ⟨by simp [hc'], List.chain'_singleton c,
          by intro x hx; simp at hx; subst hx; exact hc',
          by intro x hx; simp at hx; subst hx; exact hc'⟩
      | cons d t =>
        by_cases hd : pyIsSpace d = true
        · have hsplit : pySplit (c :: d :: t) = [c] :: pySplit (d :: t) :=
            pySplit_word_space t hc' hd
          cases hps : pySplit (d :: t) with
          | nil =>
            have : collapse (c :: d :: t) = [c] := by
              simp [collapse, hsplit, hps, joinSp]
            rw [this]
            exact ⟨by simp [hc'], List.chain'_singleton c,
              by intro x hx; simp at hx; subst hx; exact hc',
              by intro x hx; simp at hx; subst hx; exact hc'⟩
          | cons w ws =>
            have hw : w ≠ [] :=
              (pySplit_words_clean (d :: t) w (by rw [hps]; exact List.mem_cons_self w ws)).1
            have hJ : collapse (d :: t) = joinSp (w :: ws) := by rw [collapse, hps]
            have hJne : joinSp (w :: ws) ≠ [] := joinSp_ne_nil hw ws
            have hJhead : ∀ x, (joinSp (w :: ws)).head? = some x → pyIsSpace x = false := by
              intro x hx; exact ih.head x (by rw [hJ]; exact hx)
            have hform : collapse (c :: d :: t) = c :: ' ' :: joinSp (w :: ws) := by
              rw [collapse, hsplit, hps, joinSp_cons_cons]; rfl
            rw [hform]
            constructor
            · intro x hx hsp
              rcases List.mem_cons.1 hx with h | hx
              · subst h; simp [hsp] at hc'
              rcases List.mem_cons.1 hx with h | hx
              · exact h
              · exact ih.only x (by rw [hJ]; exact hx) hsp
            · rw [List.chain'_cons]
              refine ⟨by simp [wsNoPair, hc'], ?_⟩
              rw [List.chain'_cons']
              refine ⟨?_, by rw [← hJ]; exact ih.chain⟩
              intro y hy
              have : pyIsSpace y = false := hJhead y hy
              simp [wsNoPair, this]
            · intro x hx; simp at hx; subst hx; exact hc'
            · intro x hx
              rw [List.getLast?_cons_cons, getLast?_cons_of_ne_nil ' ' hJne] at hx
              exact ih.last x (by rw [hJ]; exact hx)
        · have hd' : pyIsSpace d = false := by simpa using hd
          cases hps : pySplit (d :: t) with
          | nil => exact absurd hps (pySplit_ne_nil t hd')
          | cons w ws =>
            have hsplit : pySplit (c :: d :: t) = (c :: w) :: ws := by
              rw [pySplit_word_word t hc' hd', hps]
            have hw : w ≠ [] :=
              (pySplit_words_clean (d :: t) w (by rw [hps]; exact List.mem_cons_self w ws)).1
            have hJ : collapse (d :: t) = joinSp (w :: ws) := by rw [collapse, hps]
            have hJne : joinSp (w :: ws) ≠ [] := joinSp_ne_nil hw ws
            have hform : collapse (c :: d :: t) = c :: joinSp (w :: ws) := by
              rw [collapse, hsplit, joinSp_cons_head]
            rw [hform]
            constructor
            · intro x hx hsp
              rcases List.mem_cons.1 hx with h | hx
              · subst h; simp [hsp] at hc'
              · exact ih.only x (by rw [hJ]; exact hx) hsp
            · rw [List.chain'_cons']
              refine ⟨?_, by rw [← hJ]; exact ih.chain⟩
              intro y _
              simp [wsNoPair, hc']
            · intro x hx; simp at hx; subst hx; exact hc'
            · intro x hx
              rw [getLast?_cons_of_ne_nil c hJne] at hx
              exact ih.last x (by rw [hJ]; exact hx)

theorem wsPairFree_iff_chain :
    ∀ l : List Char, wsPairFree l = true ↔ List.Chain' wsNoPair l
  | [] => by simp [wsPairFree]
  | [a] => by simp [wsPairFree]
  | a :: b :: l => by
    rw [List.chain'_cons]
    have h := wsPairFree_iff_chain (b :: l)
    simp only [wsPairFree, Bool.and_eq_true, Bool.not_eq_true', wsNoPair]
    rw [h]

theorem strictClean_iff_cleanShape (s : List Char) :
    strictClean s = true ↔ CleanShape s := by
  constructor
  · intro h
    rw [strictClean, Bool.and_eq_true, Bool.and_eq_true] at h
    obtain ⟨⟨h1, h2⟩, h3⟩ := h
    rw [noLeadTrailWS, Bool.and_eq_true] at h3
    refine ⟨?_, (wsPairFree_iff_chain s).1 h2, ?_, ?_⟩
    · intro c hc hsp
      have := (List.all_eq_true.1 h1) c hc
      rw [hsp] at this
      simpa using this
    · intro c hc
      have := h3.1
      rw [hc] at this
      simpa using this
    · intro c hc
      have := h3.2
      rw [hc] at this
      simpa using this
  · intro h
    rw [strictClean, Bool.and_eq_true, Bool.and_eq_true]
    refine ⟨⟨?_, (wsPairFree_iff_chain s).2 h.chain⟩, ?_⟩
    · rw [onlySpaceWS, List.all_eq_true]
      intro c hc
      by_cases hsp : pyIsSpace c = true
      · have := h.only c hc hsp
        subst this
        simp
      · simp only [Bool.not_eq_true] at hsp
        simp [hsp]
    · rw [noLeadTrailWS, Bool.and_eq_true]
      constructor
      · cases hh : s.head? with
        | none => simp
        | some c => simp [h.head c hh]
      · cases hh : s.getLast? with
        | none => simp
        | some c => simp [h.last c hh]

theorem format_content_clean (l : List Char) : CleanShape (format_content l) := by
  rw [format_content]
  have hc := collapse_clean l
  split
  · next hlen =>
    have hne : collapse l ≠ [] := by
      intro h
      rw [h] at hlen
      simp [MAX_TWEET_LENGTH] at hlen
    obtain ⟨a, c', hac⟩ := List.exists_cons_of_ne_nil hne
    have htake : (collapse l).take (MAX_TWEET_LENGTH - 9) = a :: c'.take (MAX_TWEET_LENGTH - 10) := by
      rw [hac]
      rfl
    have hsub : ∀ x ∈ (collapse l).take (MAX_TWEET_LENGTH - 9), x ∈ collapse l :=
      fun x hx => (List.take_sublist _ _).subset hx
    have hchaintake : List.Chain' wsNoPair ((collapse l).take (MAX_TWEET_LENGTH - 9)) := by
      have hsplit := List.take_append_drop (MAX_TWEET_LENGTH - 9) (collapse l)
      have := hc.chain
      rw [← hsplit] at this
      exact (List.chain'_append.1 this).1
    have hdot : pyIsSpace '.' = false := by decide
    constructor
    · intro x hx hsp
      rcases List.mem_append.1 hx with h | h
      · exact hc.only x (hsub x h) hsp
      · simp at h
        subst h
        exact absurd hsp (by decide)
    · rw [List.chain'_append]
      refine ⟨hchaintake, (wsPairFree_iff_chain ['.', '.', '.']).1 (by decide), ?_⟩
      intro x _ y hy
      simp at hy
      subst hy
      simp [wsNoPair, hdot]
    · intro x hx
      rw [htake] at hx
      simp at hx
      subst hx
      exact hc.head a (by rw [hac]; rfl)
    · intro x hx
      rw [← List.head?_reverse, List.reverse_append] at hx
      simp at hx
      subst hx
      exact hdot
  · exact hc

theorem format_content_length (l : List Char) :
    (format_content l).length ≤ MAX_TWEET_LENGTH - 6 := by
  rw [format_content]
  split
  · next hlen =>
    rw [List.length_append, List.length_take]
    simp only [MAX_TWEET_LENGTH] at hlen ⊢
    simp only [List.length_cons, List.length_nil]
    omega
  · next hlen =>
    exact Nat.not_lt.1 hlen

/-- A string whose only whitespace characters are single interior spaces
is left unchanged by whitespace collapsing. -/
theorem collapse_eq_self : ∀ s : List Char, CleanShape s → collapse s = s := by
  have main : ∀ n : Nat, ∀ s : List Char, s.length ≤ n → CleanShape s → collapse s = s := by
    intro n
    induction n with
    | zero =>
      intro s hs _
      rw [List.length_eq_zero.1 (Nat.le_zero.1 hs)]
      rfl
    | succ n ih =>
      intro s hs hcs
      cases s with
      | nil => rfl
      | cons a s' =>
        have ha : pyIsSpace a = false := hcs.head a rfl
        cases s' with
        | nil => rw [collapse, pySplit_singleton ha]; rfl
        | cons b t =>
          by_cases hb : pyIsSpace b = true
          · have hbsp : b = ' ' := hcs.only b (by simp) hb
            cases t with
            | nil =>
              have := hcs.last b (by rw [List.getLast?_cons_cons]; rfl)
              rw [hb] at this
              simp at this
            | cons e t' =>
              have he : pyIsSpace e = false := by
                have hch := hcs.chain
                rw [List.chain'_cons, List.chain'_cons] at hch
                have : wsNoPair b e := hch.2.1
                rw [wsNoPair, hb] at this
                simpa using this
              have hcs' : CleanShape (e :: t') := by
                refine ⟨?_, ?_, ?_, ?_⟩
                · intro x hx hsp
                  exact hcs.only x (List.mem_cons_of_mem a (List.mem_cons_of_mem b hx)) hsp
                · have hch := hcs.chain
                  rw [List.chain'_cons, List.chain'_cons] at hch
                  exact hch.2.2
                · intro x hx
                  rw [List.head?_cons] at hx
                  cases hx
                  exact he
                · intro x hx
                  refine hcs.last x ?_
                  rw [List.getLast?_cons_cons, List.getLast?_cons_cons]
                  exact hx
              have hrec : collapse (e :: t') = e :: t' := by
                refine ih (e :: t') ?_ hcs'
                simp at hs ⊢
                omega
              cases hps : pySplit (e :: t') with
              | nil => exact absurd hps (pySplit_ne_nil t' he)
              | cons w ws =>
                have hsplit : pySplit (a :: b :: e :: t') = [a] :: w :: ws := by
                  rw [pySplit_word_space _ ha hb, pySplit_cons_space _ hb, hps]
                rw [collapse, hsplit, joinSp_cons_cons]
                have : joinSp (w :: ws) = e :: t' := by
                  rw [← hps, ← collapse]
                  exact hrec
                rw [this, hbsp]
                rfl
          · have hb' : pyIsSpace b = false := by simpa using hb
            have hcs' : CleanShape (b :: t) := by
              refine ⟨?_, ?_, ?_, ?_⟩
              · intro x hx hsp
                exact hcs.only x (List.mem_cons_of_mem a hx) hsp
              · have hch := hcs.chain
                rw [List.chain'_cons] at hch
                exact hch.2
              · intro x hx
                rw [List.head?_cons] at hx
                cases hx
                exact hb'
              · intro x hx
                refine hcs.last x ?_
                rw [List.getLast?_cons_cons]
                exact hx
            have hrec : collapse (b :: t) = b :: t := by
              refine ih (b :: t) ?_ hcs'
              simp at hs ⊢
              omega
            cases hps : pySplit (b :: t) with
            | nil => exact absurd hps (pySplit_ne_nil t hb')
            | cons w ws =>
              have hsplit : pySplit (a :: b :: t) = (a :: w) :: ws := by
                rw [pySplit_word_word t ha hb', hps]
              rw [collapse, hsplit, joinSp_cons_head]
              have : joinSp (w :: ws) = b :: t := by
                rw [← hps, ← collapse]
                exact hrec
              rw [this]
  exact fun s => main s.length s le_rfl

/-- Any string whose whitespace is single interior spaces and whose length
is within the truncation threshold is a fixed point of the formatter. -/
theorem format_content_fixed {s : List Char} (hclean : CleanShape s)
    (hlen : s.length ≤ MAX_TWEET_LENGTH - 6) : format_content s = s := by
  rw [format_content, collapse_eq_self s hclean, if_neg (Nat.not_lt.2 hlen)]

/-- Formatting an output of the formatter returns it unchanged. -/
theorem format_content_idem (l : List Char) :
    format_content (format_content l) = format_content l :=
  format_content_fixed (format_content_clean l) (format_content_length l)

theorem runGo_none {g : Nat → Option (List Char)} {attempt : Nat}
    (hg : generate_tweet (g attempt) = none) (p : Nat → List Char → Bool)
    (retries fuel : Nat) :
    runGo g p retries (fuel + 1) attempt =
      ((runGo g p retries fuel (attempt + 1)).1,
        Ev.gen :: (runGo g p retries fuel (attempt + 1)).2) := by
  rw [runGo, hg]

theorem runGo_empty {g : Nat → Option (List Char)} {attempt : Nat} {c : List Char}
    (hg : generate_tweet (g attempt) = some c) (hce : c.isEmpty = true)
    (p : Nat → List Char → Bool) (retries fuel : Nat) :
    runGo g p retries (fuel + 1) attempt =
      ((runGo g p retries fuel (attempt + 1)).1,
        Ev.gen :: (runGo g p retries fuel (attempt + 1)).2) := by
  rw [runGo, hg]
  simp [hce]

theorem runGo_success {g : Nat → Option (List Char)} {p : Nat → List Char → Bool}
    {attempt : Nat} {c : List Char}
    (hg : generate_tweet (g attempt) = some c) (hce : c.isEmpty = false)
    (hp : p attempt c = true) (retries fuel : Nat) :
    runGo g p retries (fuel + 1) attempt = (true, [Ev.gen, Ev.post c true]) := by
  rw [runGo, hg]
  simp [hce, hp]

theorem runGo_fail {g : Nat → Option (List Char)} {p : Nat → List Char → Bool}
    {attempt : Nat} {c : List Char}
    (hg : generate_tweet (g attempt) = some c) (hce : c.isEmpty = false)
    (hp : p attempt c = false) (retries fuel : Nat) :
    runGo g p retries (fuel + 1) attempt =
      ((runGo g p retries fuel (attempt + 1)).1,
        Ev.gen :: Ev.post c false ::
          ((if attempt < retries - 1 then [Ev.backoff] else []) ++
            (runGo g p retries fuel (attempt + 1)).2)) := by
  rw [runGo, hg]
  simp [hce, hp]

theorem countSuccPost_le_one (g : Nat → Option (List Char)) (p : Nat → List Char → Bool)
    (retries : Nat) : ∀ fuel attempt, countSuccPost (runGo g p retries fuel attempt).2 ≤ 1 := by
  intro fuel
  induction fuel with
  | zero => intro attempt; simp [runGo, countSuccPost]
  | succ fuel ih =>
    intro attempt
    cases hg : generate_tweet (g attempt) with
    | none =>
      rw [runGo_none hg]
      simpa [countSuccPost, List.countP_cons] using ih (attempt + 1)
    | some c =>
      cases hce : c.isEmpty with
      | true =>
        rw [runGo_empty hg hce]
        simpa [countSuccPost, List.countP_cons] using ih (attempt + 1)
      | false =>
        cases hp : p attempt c with
        | true =>
          rw [runGo_success hg hce hp]
          simp [countSuccPost, List.countP_cons]
        | false =>
          rw [runGo_fail hg hce hp]
          have := ih (attempt + 1)
          rw [countSuccPost] at this ⊢
          rw [List.countP_cons, List.countP_cons, List.countP_append]
          split <;> simp_all [List.countP_cons]

theorem runGo_true_iff_succ (g : Nat → Option (List Char)) (p : Nat → List Char → Bool)
    (retries : Nat) : ∀ fuel attempt,
    (runGo g p retries fuel attempt).1 = true ↔
      0 < countSuccPost (runGo g p retries fuel attempt).2 := by
  intro fuel
  induction fuel with
  | zero => intro attempt; simp [runGo, countSuccPost]
  | succ fuel ih =>
    intro attempt
    cases hg : generate_tweet (g attempt) with
    | none =>
      rw [runGo_none hg]
      simpa [countSuccPost, List.countP_cons] using ih (attempt + 1)
    | some c =>
      cases hce : c.isEmpty with
      | true =>
        rw [runGo_empty hg hce]
        simpa [countSuccPost, List.countP_cons] using ih (attempt + 1)
      | false =>
        cases hp : p attempt c with
        | true =>
          rw [runGo_success hg hce hp]
          simp [countSuccPost, List.countP_cons]
        | false =>
          rw [runGo_fail hg hce hp]
          have := ih (attempt + 1)
          rw [countSuccPost] at this ⊢
          rw [List.countP_cons, List.countP_cons, List.countP_append]
          split <;> simp_all [List.countP_cons]

theorem runGo_post_content (g : Nat → Option (List Char)) (p : Nat → List Char → Bool)
    (retries : Nat) : ∀ fuel attempt (c : List Char) (b : Bool),
    Ev.post c b ∈ (runGo g p retries fuel attempt).2 →
      c ≠ [] ∧ c.length ≤ MAX_TWEET_LENGTH - 6 := by
  intro fuel
  induction fuel with
  | zero => intro attempt c b h; simp [runGo] at h
  | succ fuel ih =>
    intro attempt c b h
    have content_ok : ∀ c', generate_tweet (g attempt) = some c' → c'.isEmpty = false →
        c' ≠ [] ∧ c'.length ≤ MAX_TWEET_LENGTH - 6 := by
      intro c' hg hce
      obtain ⟨raw, _, hfmt⟩ := Option.map_eq_some'.1 hg
      refine ⟨by simpa using hce, ?_⟩
      rw [← hfmt]
      exact format_content_length raw
    cases hg : generate_tweet (g attempt) with
    | none =>
      rw [runGo_none hg] at h
      rcases List.mem_cons.1 h with h | h
      · exact absurd h (by simp)
      · exact ih (attempt + 1) c b h
    | some c' =>
      cases hce : c'.isEmpty with
      | true =>
        rw [runGo_empty hg hce] at h
        rcases List.mem_cons.1 h with h | h
        · exact absurd h (by simp)
        · exact ih (attempt + 1) c b h
      | false =>
        cases hp : p attempt c' with
        | true =>
          rw [runGo_success hg hce hp] at h
          simp at h
          rcases h with ⟨h, _⟩
          subst h
          exact content_ok _ hg hce
        | false =>
          rw [runGo_fail hg hce hp] at h
          rcases List.mem_cons.1 h with h | h
          · exact absurd h (by simp)
          rcases List.mem_cons.1 h with h | h
          · have : c = c' := by injection h
            subst this
            exact content_ok c hg hce
          rcases List.mem_append.1 h with h | h
          · split at h <;> simp at h
          · exact ih (attempt + 1) c b h

/-- C1: for every input string, the output of `_format_content` has length
at most `MAX_TWEET_LENGTH` (280), contains no two consecutive whitespace
characters and no newline, and has no leading or trailing whitespace; on
the raw input `"  hello   world  \n"` it returns exactly `"hello world"`. -/
theorem claim1_format_bounds :
    (∀ l : List Char,
      (format_content l).length ≤ MAX_TWEET_LENGTH ∧
      wsPairFree (format_content l) = true ∧
      noNewline (format_content l) = true ∧
      noLeadTrailWS (format_content l) = true) ∧
    format_content "  hello   world  \n".toList = "hello world".toList := by
  constructor
  · intro l
    have hc := format_content_clean l
    have hs := (strictClean_iff_cleanShape _).2 hc
    rw [strictClean, Bool.and_eq_true, Bool.and_eq_true] at hs
    refine ⟨le_trans (format_content_length l) (by decide), hs.1.2, ?_, hs.2⟩
    rw [noNewline, List.all_eq_true]
    intro c hcmem
    by_cases h : c = '\n'
    · subst h
      have := hc.only '\n' hcmem (by decide)
      exact absurd this (by decide)
    · simp [h]
  · decide

/-- C2: whenever the whitespace-collapsed input exceeds the truncation
threshold `MAX_TWEET_LENGTH - 6`, the formatter returns a string of the
one exact length `MAX_TWEET_LENGTH - 6` (= 274) ending in `"..."`. -/
theorem claim2_truncation_exact (raw : List Char)
    (h : MAX_TWEET_LENGTH - 6 < (collapse raw).length) :
    (format_content raw).length = MAX_TWEET_LENGTH - 6 ∧
      ['.', '.', '.'] <:+ format_content raw := by
  rw [format_content, if_pos h]
  constructor
  · rw [List.length_append, List.length_take]
    simp only [MAX_TWEET_LENGTH] at h ⊢
    simp only [List.length_cons, List.length_nil]
    omega
  · exact List.suffix_append _ _

set_option maxRecDepth 8000 in
theorem claim2_truncation_exact_witness :
    (format_content (List.replicate 300 'a')).length = MAX_TWEET_LENGTH - 6 ∧
      ['.', '.', '.'] <:+ format_content (List.replicate 300 'a') :=
  claim2_truncation_exact (List.replicate 300 'a') (by decide)

/-- C3 as stated is false: with generation empty on every attempt (in
particular on attempt 0, with 0 < retries = 3), the run performs no
backoff sleep at all — `continue` skips the inter-attempt sleep. -/
theorem claim3_counterexample :
    (run (fun _ => none) (fun _ _ => false) 3).2 = [Ev.gen, Ev.gen, Ev.gen] ∧
      countBackoff (run (fun _ => none) (fun _ _ => false) 3).2 = 0 := by
  constructor <;> rfl

/-- C3 amended: whenever generation returns `None` or formats to the
empty string on an attempt, the orchestrator proceeds directly to the
next attempt, recording only the generation event — no backoff sleep and
no publish call happen on that attempt. -/
theorem claim3_empty_gen_no_backoff (g : Nat → Option (List Char))
    (p : Nat → List Char → Bool) (retries fuel attempt : Nat)
    (h : ∀ r, g attempt = some r → format_content r = []) :
    runGo g p retries (fuel + 1) attempt =
      ((runGo g p retries fuel (attempt + 1)).1,
        Ev.gen :: (runGo g p retries fuel (attempt + 1)).2) := by
  cases hg : g attempt with
  | none => exact runGo_none (by rw [generate_tweet, hg]; rfl) p retries fuel
  | some r =>
    refine runGo_empty (c := format_content r) (by rw [generate_tweet, hg]; rfl) ?_ p retries fuel
    rw [h r hg]
    rfl

theorem claim3_empty_gen_no_backoff_witness :
    runGo (fun _ => none) (fun _ _ => false) 3 1 0 =
      ((runGo (fun _ => none) (fun _ _ => false) 3 0 1).1,
        Ev.gen :: (runGo (fun _ => none) (fun _ _ => false) 3 0 1).2) :=
  claim3_empty_gen_no_backoff _ _ 3 0 0 (fun _ h => Option.noConfusion h)

/-- C4: when `post_tweet` reports success on an attempt, `run` returns
true immediately with no further generation, publish or backoff events;
and in every trace of the loop at most one successful publish occurs. -/
theorem claim4_single_success :
    (∀ (g : Nat → Option (List Char)) (p : Nat → List Char → Bool)
        (retries fuel attempt : Nat) (c : List Char),
      generate_tweet (g attempt) = some c → c.isEmpty = false → p attempt c = true →
      runGo g p retries (fuel + 1) attempt = (true, [Ev.gen, Ev.post c true])) ∧
    (∀ (g : Nat → Option (List Char)) (p : Nat → List Char → Bool)
        (retries fuel attempt : Nat),
      countSuccPost (runGo g p retries fuel attempt).2 ≤ 1) :=
  ⟨fun _ _ retries fuel _ _ hg hce hp => runGo_success hg hce hp retries fuel,
   fun g p retries => countSuccPost_le_one g p retries⟩

theorem claim4_single_success_witness :
    runGo (fun _ => some ['h', 'i']) (fun _ _ => true) 3 3 0 =
      (true, [Ev.gen, Ev.post ['h', 'i'] true]) :=
  claim4_single_success.1 _ _ 3 2 0 ['h', 'i'] (by decide) (by decide) rfl

/-- C5: if generation always yields non-empty content and the publisher
fails on every call, `run` with 3 retries returns false, calls the
publisher exactly 3 times and performs exactly 2 backoff waits. -/
theorem claim5_always_fail (g : Nat → Option (List Char)) (p : Nat → List Char → Bool)
    (hgen : ∀ i, ∃ r, g i = some r ∧ (format_content r).isEmpty = false)
    (hp : ∀ i c, p i c = false) :
    (run g p 3).1 = false ∧ countPost (run g p 3).2 = 3 ∧
      countBackoff (run g p 3).2 = 2 := by
  obtain ⟨r0, hg0, he0⟩ := hgen 0
  obtain ⟨r1, hg1, he1⟩ := hgen 1
  obtain ⟨r2, hg2, he2⟩ := hgen 2
  have e0 : generate_tweet (g 0) = some (format_content r0) := by rw [generate_tweet, hg0]; rfl
  have e1 : generate_tweet (g 1) = some (format_content r1) := by rw [generate_tweet, hg1]; rfl
  have e2 : generate_tweet (g 2) = some (format_content r2) := by rw [generate_tweet, hg2]; rfl
  have step2 : runGo g p 3 1 2 =
      (false, [Ev.gen, Ev.post (format_content r2) false]) := by
    have h := runGo_fail e2 he2 (hp 2 _) 3 0
    simpa [runGo] using h
  have step1 : runGo g p 3 2 1 =
      (false, [Ev.gen, Ev.post (format_content r1) false, Ev.backoff,
        Ev.gen, Ev.post (format_content r2) false]) := by
    have h := runGo_fail e1 he1 (hp 1 _) 3 1
    rw [show (1 : Nat) + 1 = 2 from rfl] at h
    rw [step2] at h
    simpa using h
  have step0 : runGo g p 3 3 0 =
      (false, [Ev.gen, Ev.post (format_content r0) false, Ev.backoff,
        Ev.gen, Ev.post (format_content r1) false, Ev.backoff,
        Ev.gen, Ev.post (format_content r2) false]) := by
    have h := runGo_fail e0 he0 (hp 0 _) 3 2
    rw [show (2 : Nat) + 1 = 3 from rfl] at h
    rw [step1] at h
    simpa using h
  rw [run, step0]
  refine ⟨rfl, ?_, ?_⟩ <;> rfl

theorem claim5_always_fail_witness :
    (run (fun _ => some ['h', 'i']) (fun _ _ => false) 3).1 = false ∧
      countPost (run (fun _ => some ['h', 'i']) (fun _ _ => false) 3).2 = 3 ∧
      countBackoff (run (fun _ => some ['h', 'i']) (fun _ _ => false) 3).2 = 2 :=
  claim5_always_fail _ _ (fun _ => ⟨['h', 'i'], rfl, by decide⟩) (fun _ _ => rfl)

/-- C6: the publish operation issues its request at time `now` when no
prior publish is recorded, and never before `RATE_LIMIT_DELAY` seconds
past the recorded publish time otherwise — in particular a second
publish started within the delay window cannot issue its request early. -/
theorem claim6_rate_limit :
    (∀ now succTime : Rat, ∀ ok : Bool,
      (post_tweet none now succTime ok).2.2 = now) ∧
    (∀ t now succTime : Rat, ∀ ok : Bool,
      t + RATE_LIMIT_DELAY ≤ (post_tweet (some t) now succTime ok).2.2) := by
  constructor
  · intro now s ok
    cases ok <;> rfl
  · intro t now s ok
    have hval : (post_tweet (some t) now s ok).2.2 = awaitSlotUntil (some t) now := by
      cases ok <;> rfl
    rw [hval, awaitSlotUntil]
    split
    · next _ =>
      have : now + (RATE_LIMIT_DELAY - (now - t)) = t + RATE_LIMIT_DELAY := by ring
      rw [this]
    · next h =>
      push_neg at h
      linarith

/-- C7: `last_tweet_time` is unchanged when `post_tweet` reports failure
(any exception path), and is set to the post-request current time when it
reports success. -/
theorem claim7_state_update :
    (∀ (last : Option Rat) (now succTime : Rat),
      post_tweet last now succTime false = (false, last, awaitSlotUntil last now)) ∧
    (∀ (last : Option Rat) (now succTime : Rat),
      post_tweet last now succTime true = (true, some succTime, awaitSlotUntil last now)) :=
  ⟨fun _ _ _ => rfl, fun _ _ _ => rfl⟩

/-- C8 as stated is false: `['a', '\n', 'b']` has no run of two
consecutive whitespace characters, no leading or trailing whitespace and
length within the truncation threshold, yet the formatter rewrites its
newline to a space. -/
theorem claim8_counterexample :
    wsPairFree ['a', '\n', 'b'] = true ∧ noLeadTrailWS ['a', '\n', 'b'] = true ∧
      (['a', '\n', 'b'] : List Char).length ≤ MAX_TWEET_LENGTH - 6 ∧
      (format_content ['a', '\n', 'b'] == ['a', '\n', 'b']) = false := by decide

/-- C8 amended: a string whose whitespace consists only of single
interior plain spaces and whose length is within the truncation threshold
is returned unchanged, and `_format_content` is idempotent on every
input. -/
theorem claim8_idempotent :
    (∀ s : List Char, strictClean s = true → s.length ≤ MAX_TWEET_LENGTH - 6 →
      format_content s = s) ∧
    (∀ l : List Char, format_content (format_content l) = format_content l) :=
  ⟨fun s hsc hlen => format_content_fixed ((strictClean_iff_cleanShape s).1 hsc) hlen,
   format_content_idem⟩

theorem claim8_idempotent_witness : format_content "a b".toList = "a b".toList :=
  claim8_idempotent.1 "a b".toList (by decide) (by decide)

/-- C9: the process exit code is 0 exactly when a publish succeeded
within the attempt budget, and a missing or empty required credential
aborts with exit code 1 before any attempt — the trace is empty. -/
theorem claim9_exit_code :
    (∀ (installOk : Bool) (env : String → Option String)
        (g : Nat → Option (List Char)) (p : Nat → List Char → Bool),
      (mainModel installOk env g p).1 = 0 ↔
        0 < countSuccPost (mainModel installOk env g p).2) ∧
    (∀ (installOk : Bool) (env : String → Option String)
        (g : Nat → Option (List Char)) (p : Nat → List Char → Bool),
      (∃ v ∈ required_vars, falsyEnv (env v) = true) →
      mainModel installOk env g p = (1, [])) := by
  constructor
  · intro installOk env g p
    rw [mainModel]
    cases installOk with
    | false => simp [countSuccPost]
    | true =>
      rw [if_pos rfl]
      cases hlc : load_credentials env with
      | error m => simp [countSuccPost]
      | ok creds =>
        have hiff := runGo_true_iff_succ g p 3 3 0
        rw [← run] at hiff
        cases hr : (run g p 3).1 with
        | true =>
          simp only [hr, if_true]
          simpa [hr] using hiff
        | false =>
          simp only [hr]
          rw [hr] at hiff
          simp only [Bool.false_eq_true, false_iff, Nat.not_lt, Nat.le_zero] at hiff
          simp [hiff]
  · rintro installOk env g p ⟨v, hv, hfv⟩
    rw [mainModel]
    cases installOk with
    | false => rfl
    | true =>
      rw [if_pos rfl]
      have hmem : v ∈ required_vars.filter fun v => falsyEnv (env v) :=
        List.mem_filter.2 ⟨hv, hfv⟩
      have hne : (required_vars.filter fun v => falsyEnv (env v)).isEmpty = false := by
        cases hf : required_vars.filter fun v => falsyEnv (env v) with
        | nil => rw [hf] at hmem; exact absurd hmem (by simp)
        | cons a t => rfl
      rw [load_credentials]
      rw [if_neg (by simp [hne])]

theorem claim9_exit_code_witness :
    mainModel true (fun _ => none) (fun _ => none) (fun _ _ => false) = (1, []) :=
  claim9_exit_code.2 true (fun _ => none) (fun _ => none) (fun _ _ => false)
    ⟨"ACCESS_TOKEN", by decide, rfl⟩

/-- C10: every content string the orchestrator hands to the publisher is
non-empty and of length at most `MAX_TWEET_LENGTH - 6` (274), strictly
below the 280-character platform limit. -/
theorem claim10_publish_precondition (g : Nat → Option (List Char))
    (p : Nat → List Char → Bool) (retries fuel attempt : Nat) (c : List Char) (b : Bool)
    (h : Ev.post c b ∈ (runGo g p retries fuel attempt).2) :
    c ≠ [] ∧ c.length ≤ MAX_TWEET_LENGTH - 6 :=
  runGo_post_content g p retries fuel attempt c b h

theorem claim10_publish_precondition_witness :
    ['h', 'i'] ≠ ([] : List Char) ∧
      (['h', 'i'] : List Char).length ≤ MAX_TWEET_LENGTH - 6 :=
  claim10_publish_precondition (fun _ => some ['h', 'i']) (fun _ _ => true) 3 3 0
    ['h', 'i'] true (by decide)

